import Mathlib

/-!
Shallow embedding of the customer-resolution pipeline of the invoice-AI
repository (backend/src): the name normalizer and fuzzy-match plumbing of
`kb_manager.py`, the match arbitration of `client_models.py`, the weight
reconciliation fallback of `api/main.py`, and the "lain" weight override of
`excel_creator.py`.

Modelling conventions:
- Python floats are modelled as rationals (ℚ).
- Python strings are Lean strings; character-level operations (str.lower,
  str.upper, the regex word class) are modelled at ASCII precision, the
  precision at which the repository's fixed prefix/suffix/keyword tables
  operate.  unicodedata.normalize("NFKC", s) is the identity on the ASCII
  range and is modelled as the identity; because Unicode \w and NFKC
  diverge from these models outside that range, every theorem quantifying
  over arbitrary normalizer inputs carries an explicit ASCII hypothesis
  restricting it to the domain where model and source coincide.
- Python `int(x)` truncates toward zero; modelled by `pyInt`.
- Python `round(x, 2)` rounds half to even; modelled by `round2`.
- The external LLM arbiter call is modelled by an abstract `ArbiterOutcome`
  (unavailable model, raised exception, or a returned response string); the
  fuzzy scorer `process.extract` is modelled by an abstract list of
  (matched cleaned name, score) pairs.  Everything downstream of these
  external calls is translated from the source.
-/

/-- Python str.strip / str.split whitespace class, `[ \t\n\r\x0b\x0c]`
(ASCII precision). -/
def isWS (c : Char) : Bool :=
  c = ' ' || c = '\t' || c = '\n' || c = '\r' || c = '\x0b' || c = '\x0c'

/-- Python str.lower at ASCII precision: map A-Z to a-z. -/
def lowerChar (c : Char) : Char :=
  if 65 ≤ c.toNat ∧ c.toNat ≤ 90 then Char.ofNat (c.toNat + 32) else c

/-- Python str.upper at ASCII precision: map a-z to A-Z. -/
def upperChar (c : Char) : Char :=
  if 97 ≤ c.toNat ∧ c.toNat ≤ 122 then Char.ofNat (c.toNat - 32) else c

/-- Python s.lower() on a whole string. -/
def lowerStr (s : String) : String := ⟨s.data.map lowerChar⟩

/-- Python s.upper() on a whole string. -/
def upperStr (s : String) : String := ⟨s.data.map upperChar⟩

/-- Python s.strip(): drop leading and trailing whitespace. -/
def stripL (l : List Char) : List Char :=
  ((l.dropWhile isWS).reverse.dropWhile isWS).reverse

/-- Accumulator-based splitter behind `splitWS`; `acc` holds the current
word reversed. -/
def splitWSAux : List Char → List Char → List (List Char)
  | [], acc => if acc.isEmpty then [] else [acc.reverse]
  | c :: cs, acc =>
    if isWS c then
      (if acc.isEmpty then splitWSAux cs [] else acc.reverse :: splitWSAux cs [])
    else splitWSAux cs (c :: acc)

/-- Python s.split() with no argument: maximal runs of non-whitespace. -/
def splitWS (l : List Char) : List (List Char) := splitWSAux l []

/-- Python " ".join(ws). -/
def joinSpace : List (List Char) → List Char
  | [] => []
  | [w] => w
  | w :: ws => w ++ ' ' :: joinSpace ws

/-- Python " ".join(s.split()): collapse runs of whitespace to single
spaces and trim the ends. -/
def collapseWS (l : List Char) : List Char := joinSpace (splitWS l)

/-- Python regex \w at ASCII precision: alphanumerics and underscore.
Python matches the full Unicode word-character class here; on the ASCII
range the two agree, and every statement about the normalizer that
quantifies over arbitrary inputs is therefore restricted to ASCII inputs
(see `clean_name_idempotent_without_affixes`). -/
def isWordChar (c : Char) : Bool := c.isAlphanum || c = '_'

/-- The character class kept by `re.sub` in clean_name_for_matching:
word characters, whitespace, the CJK block U+4E00-U+9FFF, and `@&().-`.
Faithful on ASCII (where \w is exactly alphanumerics and underscore); a
non-ASCII alphanumeric the source keeps is replaced by a space here, so
this definition is only used under the ASCII restriction above. -/
def allowedChar (c : Char) : Bool :=
  isWordChar c || isWS c || (0x4e00 ≤ c.toNat && c.toNat ≤ 0x9fff) ||
    c = '@' || c = '&' || c = '(' || c = ')' || c = '.' || c = '-'

/-- The `re.sub(r"[^...]", " ", cleaned)` step: replace each disallowed
character by a space. -/
def regexClean (l : List Char) : List Char :=
  l.map (fun c => if allowedChar c then c else ' ')

/-- unicodedata.normalize("NFKC", ·): modelled as the identity, which is
faithful exactly on the ASCII range (every ASCII character is its own NFKC
normalization and ASCII strings are NFKC-closed).  Outside that range the
source expands characters - the vulgar fraction one-half becomes digit
one, fraction slash, digit two - which this identity model drops, so every
universally quantified statement about the normalizer is restricted to
ASCII inputs (see `clean_name_idempotent_without_affixes`). -/
@[reducible] def nfkc (l : List Char) : List Char := l

/-- The personal-title table of clean_name_for_matching
(prefixes_to_remove). -/
def titleAffixes : List (List Char) :=
  ["mr.".data, "mrs.".data, "ms.".data, "en.".data, "pn.".data, "dr.".data,
   "prof.".data]

/-- The company-suffix table of clean_name_for_matching
(suffixes_to_remove). -/
def companyAffixes : List (List Char) :=
  ["sdn bhd".data, "sdn.bhd.".data, "bhd".data, "pte ltd".data, "ltd".data,
   "inc".data, "corp".data]

/-- The prefix-removal loop: for each table entry in order, if it is a
prefix of the current string, drop it and strip. -/
def removeTitleAffixes (l : List Char) : List Char :=
  titleAffixes.foldl
    (fun cur p => if p.isPrefixOf cur then stripL (cur.drop p.length) else cur) l

/-- The suffix-removal loop: for each table entry in order, if it is a
suffix of the current string, cut it off and strip. -/
def removeCompanyAffixes (l : List Char) : List Char :=
  companyAffixes.foldl
    (fun cur s =>
      if s.isSuffixOf cur then stripL (cur.take (cur.length - s.length)) else cur) l

/-- kb_manager.clean_name_for_matching on character lists: lower+strip,
strip titles, strip company suffixes, regex-replace disallowed characters
by spaces, NFKC, collapse whitespace. -/
def cleanChars (l : List Char) : List Char :=
  collapseWS (nfkc (regexClean (removeCompanyAffixes (removeTitleAffixes
    (stripL (l.map lowerChar))))))

/-- kb_manager.clean_name_for_matching (the empty-input guard of the source
returns "", which cleanChars also yields on []). -/
def clean_name_for_matching (name : String) : String := ⟨cleanChars name.data⟩

/-- Python substring test `needle in hay` on character lists. -/
def listContains (hay needle : List Char) : Bool :=
  match hay with
  | [] => needle.isEmpty
  | _ :: t => needle.isPrefixOf hay || listContains t needle

/-- Python substring test `needle in hay` on strings. -/
def containsSub (hay needle : String) : Bool := listContains hay.data needle.data

/-- Canonical catalog entry (data_models.Customer); the two optional split
amounts mirror the Optional[float] fields. -/
structure Customer where
  name : String
  price_per_ton : ℚ
  formula : String
  company_amount : Option ℚ
  worker_amount : Option ℚ
deriving DecidableEq

/-- One spreadsheet cell as the loader sees it: empty (None), text that
float() rejects, or a numeric value. -/
inductive CellVal where
  | empty
  | text
  | num (q : ℚ)
deriving DecidableEq

/-- Python int(x) for a rational x: truncation toward zero. -/
def pyInt (q : ℚ) : ℤ := if q < 0 then -⌊-q⌋ else ⌊q⌋

/-- Python round-half-to-even on a rational, to an integer. -/
def roundHalfEven (q : ℚ) : ℤ :=
  if q - ⌊q⌋ < 1/2 then ⌊q⌋
  else if 1/2 < q - ⌊q⌋ then ⌊q⌋ + 1
  else if ⌊q⌋ % 2 = 0 then ⌊q⌋ else ⌊q⌋ + 1

/-- Python round(x, 2). -/
def round2 (q : ℚ) : ℚ := (roundHalfEven (q * 100) : ℚ) / 100

/-- load_from_excel price cell: float(value) on a numeric cell, else the
0 default (empty cell, or the bare except on a parse failure). -/
def parsePrice : CellVal → ℚ
  | .num q => q
  | _ => 0

/-- load_from_excel company cell: kept only when float() succeeds and the
value is positive; None otherwise. -/
def parseCompany : CellVal → Option ℚ
  | .num q => if 0 < q then some q else none
  | _ => none

/-- Whether a cell holds a positive numeric value (the condition under
which the worker cell is taken verbatim). -/
def cellPositiveNum : CellVal → Bool
  | .num q => decide (0 < q)
  | _ => false

/-- load_from_excel worker cell, first phase (the `if worker_cell.value is
not None` block): a positive numeric value is rounded and kept; a parse
failure falls back to price - company when price is positive and company
present; an empty cell and a nonpositive value yield None. -/
def parseWorker (price : ℚ) (company : Option ℚ) : CellVal → Option ℚ
  | .empty => none
  | .text =>
    match company with
    | some c => if 0 < price then some (round2 (price - c)) else none
    | none => none
  | .num q => if 0 < q then some (round2 q) else none

/-- load_from_excel worker cell including the final derivation (`if
worker_amount is None and price_per_ton > 0 and company_amount is not
None`). -/
def loadWorker (price : ℚ) (company : Option ℚ) (cell : CellVal) : Option ℚ :=
  match parseWorker price company cell with
  | some w => some w
  | none =>
    match company with
    | some c => if 0 < price then some (round2 (price - c)) else none
    | none => none

/-- One data row of load_from_excel turned into a Customer (the name cell
is already known nonblank, otherwise the row is skipped). -/
def load_customer_row (name : String) (priceCell companyCell workerCell : CellVal)
    (formulaCell : Option String) : Customer :=
  let price := parsePrice priceCell
  let company := parseCompany companyCell
  { name := name
    price_per_ton := price
    formula := formulaCell.getD "WEIGHT_PRICE"
    company_amount := company
    worker_amount := loadWorker price company workerCell }

/-- The catalog-derived entry built inside find_customer_matches:
original name, cleaned name, and the customer itself. -/
structure CustEntry where
  original_name : String
  cleaned_name : String
  customer : Customer
deriving DecidableEq

/-- The customer_data list of find_customer_matches. -/
def customerEntries (customers : List Customer) : List CustEntry :=
  customers.map (fun c => ⟨c.name, clean_name_for_matching c.name, c⟩)

/-- One fuzzy-search result dict of find_customer_matches (the metadata
sub-dict repeats these fields and is omitted). -/
structure MatchResult where
  customer_name : String
  price_per_ton : ℚ
  confidence_score : ℚ
deriving DecidableEq

/-- kb_manager.find_customer_matches downstream of the fuzzy scorer: the
scorer's (cleaned-name, percent-score) pairs are an abstract input; each is
mapped back to the first catalog entry whose cleaned name equals the match
string (the inner for/break loop), skipped if none matches. -/
def find_customer_matches (customers : List Customer)
    (fuzzyMatches : List (String × ℚ)) : List MatchResult :=
  let cd := customerEntries customers
  fuzzyMatches.filterMap (fun ms =>
    (cd.find? (fun item => item.cleaned_name == ms.1)).map
      (fun item =>
        { customer_name := item.customer.name
          price_per_ton := item.customer.price_per_ton
          confidence_score := ms.2 / 100 }))

/-- kb_manager.search_similar_customers: delegates to find_customer_matches;
its ensure-fields loop is a no-op on the typed records of this embedding,
and its try/except wrapper returns [] instead of raising. -/
def search_similar_customers (customers : List Customer)
    (fuzzyMatches : List (String × ℚ)) : List MatchResult :=
  find_customer_matches customers fuzzyMatches

/-- One vector/fuzzy search result as find_best_customer_match reads it:
customer_name, confidence_score (the similarity), price_per_ton. -/
structure VectorResult where
  customer_name : String
  confidence_score : ℚ
  price_per_ton : ℚ
deriving DecidableEq

/-- The ephemeral candidate dict built during arbitration. -/
structure Candidate where
  customer_name : String
  similarity_score : ℚ
  customer_price : ℚ
  extracted_price : Option ℚ
  exact_price_match : Bool
  combined_confidence : ℚ
deriving DecidableEq

/-- The exact-price check of find_best_customer_match: the extracted price
is present and truthy, both prices positive, difference below 0.01. -/
def isExactPriceMatch (extractedPrice : Option ℚ) (customerPrice : ℚ) : Bool :=
  match extractedPrice with
  | none => false
  | some p =>
    if p ≠ 0 ∧ 0 < p ∧ 0 < customerPrice ∧ |p - customerPrice| < 1/100
    then true else false

/-- Build one candidate from one search result: flag the exact price match
and derive combined_confidence as similarity * 0.95 (exact) or * 0.7. -/
def mkCandidate (extractedPrice : Option ℚ) (m : VectorResult) : Candidate :=
  let epm := isExactPriceMatch extractedPrice m.price_per_ton
  { customer_name := m.customer_name
    similarity_score := m.confidence_score
    customer_price := m.price_per_ton
    extracted_price := extractedPrice
    exact_price_match := epm
    combined_confidence :=
      if epm then m.confidence_score * (19/20) else m.confidence_score * (7/10) }

/-- Stable descending insertion by combined_confidence: a new element goes
before the first strictly smaller key and after equal keys. -/
def insertDesc (c : Candidate) : List Candidate → List Candidate
  | [] => [c]
  | d :: ds =>
    if d.combined_confidence < c.combined_confidence then c :: d :: ds
    else d :: insertDesc c ds

/-- Python list.sort(key=combined_confidence, reverse=True): a stable
descending sort. -/
def sortByConfDesc (l : List Candidate) : List Candidate :=
  l.foldl (fun acc c => insertDesc c acc) []

/-- Steps 2-3 of find_best_customer_match: build candidates from the search
results, partition into exact-price and name-only, sort each bucket
descending by combined confidence, keep only name-only candidates with
combined confidence above 0.6, and concatenate exact-price first. -/
def buildCandidates (extractedPrice : Option ℚ) (vectorResults : List VectorResult) :
    List Candidate :=
  let cands := vectorResults.map (mkCandidate extractedPrice)
  let exact := cands.filter (fun c => c.exact_price_match)
  let nameOnly := cands.filter (fun c => !c.exact_price_match)
  let sortedExact := sortByConfDesc exact
  let goodName := (sortByConfDesc nameOnly).filter
    (fun c => (3:ℚ)/5 < c.combined_confidence)
  sortedExact ++ goodName

/-- The external arbiter call as seen from the code: the Gemini model can
be unconfigured (None), the generate_content call can raise, or it returns
a response string. -/
inductive ArbiterOutcome where
  | unavailable
  | error
  | answer (response : String)

/-- The shared fallback of ai_choose_best_match_with_price (used when the
model is unavailable, the candidate list is empty, or the call raises):
first exact-price candidate, else first candidate, else None. -/
def fallbackChoice (candidates : List Candidate) : Option String :=
  match candidates.filter (fun c => c.exact_price_match) with
  | e :: _ => some e.customer_name
  | [] => (candidates.head?).map (fun c => c.customer_name)

/-- client_models.InvoiceProcessorClient._ai_choose_best_match_with_price:
fallback when the model is unavailable or the candidate list is empty;
fallback on a raised exception; on a response, "NONE" means no choice, a
response containing some candidate name (case-insensitive substring) picks
the first such candidate, and otherwise the first exact-price candidate is
picked if one exists, else no choice. -/
def ai_choose_best_match_with_price (outcome : ArbiterOutcome)
    (candidates : List Candidate) : Option String :=
  if candidates.isEmpty then fallbackChoice candidates
  else
    match outcome with
    | .unavailable => fallbackChoice candidates
    | .error => fallbackChoice candidates
    | .answer resp =>
      if upperStr resp = "NONE" then none
      else
        match candidates.find?
            (fun c => containsSub (lowerStr resp) (lowerStr c.customer_name)) with
        | some c => some c.customer_name
        | none =>
          match candidates.filter (fun c => c.exact_price_match) with
          | e :: _ => some e.customer_name
          | [] => none

/-- The match decision dict returned by find_best_customer_match, with the
keys of the three status shapes folded into options (the code uses the key
"confidence_score" on a match and "confidence" otherwise; both are the
confidence field here). -/
inductive MatchStatus where
  | match_found
  | new_customer_detected
  | no_name_provided
deriving DecidableEq

structure MatchDecision where
  status : MatchStatus
  matched_customer_name : Option String
  confidence : ℚ
  price_match : Option Bool
  customer_price : Option ℚ
deriving DecidableEq

/-- The no-match decision (status new_customer_detected, confidence 0). -/
def newCustomerDecision : MatchDecision :=
  { status := .new_customer_detected, matched_customer_name := none
    confidence := 0, price_match := none, customer_price := none }

/-- The top-3 candidate list handed to the arbiter (step 4). -/
def topCandidates (extractedPrice : Option ℚ) (vectorResults : List VectorResult) :
    List Candidate :=
  (buildCandidates extractedPrice vectorResults).take 3

/-- The candidate the arbitration step effectively selects: the arbiter's
(or fallback's) answer resolved against the top-3 list, with Python's
truthiness on the returned name (an empty-string choice selects nothing,
exactly as `if ai_choice:` treats it). -/
def selectedCandidate (extractedPrice : Option ℚ) (vectorResults : List VectorResult)
    (outcome : ArbiterOutcome) : Option Candidate :=
  match ai_choose_best_match_with_price outcome
      (topCandidates extractedPrice vectorResults) with
  | none => none
  | some choice =>
    if choice = "" then none
    else (topCandidates extractedPrice vectorResults).find?
      (fun c => c.customer_name == choice)

/-- client_models.InvoiceProcessorClient.find_best_customer_match.  The
search results and the arbiter outcome are explicit inputs (the code gets
them from kb_manager.search_similar_customers and the Gemini call).  The
`Except` result makes the one unguarded partial operation explicit: when
the arbiter names a candidate absent from the top-3 list, line 397 of the
source subscripts None and raises; every other path returns a decision. -/
def find_best_customer_match (extractedName : String) (extractedPrice : Option ℚ)
    (vectorResults : List VectorResult) (outcome : ArbiterOutcome) :
    Except String MatchDecision :=
  if extractedName = "" then
    .ok { status := .no_name_provided, matched_customer_name := none
          confidence := 0, price_match := none, customer_price := none }
  else if vectorResults.isEmpty then .ok newCustomerDecision
  else if (buildCandidates extractedPrice vectorResults).isEmpty then
    .ok newCustomerDecision
  else
    match ai_choose_best_match_with_price outcome
        (topCandidates extractedPrice vectorResults) with
    | none => .ok newCustomerDecision
    | some choice =>
      if choice = "" then .ok newCustomerDecision
      else
        match (topCandidates extractedPrice vectorResults).find?
            (fun c => c.customer_name == choice) with
        | none => .error "TypeError: NoneType is not subscriptable"
        | some c =>
          if 1/2 ≤ c.combined_confidence then
            .ok { status := .match_found
                  matched_customer_name := some choice
                  confidence := c.combined_confidence
                  price_match := some c.exact_price_match
                  customer_price := some c.customer_price }
          else .ok newCustomerDecision

/-- The weight-resolution fallback of api/main.py process_invoices: the
extracted weight (None meaning missing) is truncated to an int; when it is
zero and both total and price are positive, it is back-computed as
total/price for a count-based record and total*1000/price for a
weight-based one, truncated to an int. -/
def reconcile_weight (weightRaw : Option ℚ) (total : ℚ) (price : ℚ)
    (is_count : Bool) : ℤ :=
  let w : ℤ := match weightRaw with | none => 0 | some q => pyInt q
  if w = 0 ∧ 0 < total ∧ 0 < price then
    if is_count then pyInt (total / price) else pyInt (total * 1000 / price)
  else w

/-- The per-row weight written by excel_creator._create_main_data_sheet:
a customer name containing "lain" (case-insensitive) forces the weight
cell to 1. -/
def main_sheet_weight (customer_name : String) (weight_kg : ℤ) : ℤ :=
  if weight_kg ≠ 1 ∧ containsSub (lowerStr customer_name) "lain" then 1
  else weight_kg

/-- Concrete search result used by witnesses: exact-price match at
similarity 0.6. -/
def wVrExact : VectorResult := ⟨"alice", 3/5, 10⟩

/-- Concrete search result used by witnesses: name-only match at
similarity 0.95. -/
def wVrName : VectorResult := ⟨"bob", 19/20, 20⟩

/-- Concrete catalog customer used by witnesses (cleans to "ali"). -/
def wCustTitled : Customer := ⟨"Mr. Ali", 10, "WEIGHT_PRICE", none, none⟩

/-- Concrete catalog customer used by witnesses (also cleans to "ali"). -/
def wCustPlain : Customer := ⟨"ali", 12, "WEIGHT_PRICE", none, none⟩

/-! ### Helper lemmas -/

theorem mem_insertDesc (c x : Candidate) (l : List Candidate) :
    x ∈ insertDesc c l ↔ x = c ∨ x ∈ l := by
  induction l with
  | nil => simp [insertDesc]
  | cons d ds ih =>
    unfold insertDesc
    by_cases h : d.combined_confidence < c.combined_confidence
    · simp [h]
    · simp only [h, if_false, List.mem_cons, ih]
      tauto

theorem mem_sortByConfDesc (l : List Candidate) (x : Candidate) :
    x ∈ sortByConfDesc l ↔ x ∈ l := by
  suffices h : ∀ acc, x ∈ l.foldl (fun acc c => insertDesc c acc) acc ↔
      x ∈ acc ∨ x ∈ l by
    simpa [sortByConfDesc] using h []
  induction l with
  | nil => simp
  | cons c cs ih =>
    intro acc
    simp only [List.foldl_cons, ih, mem_insertDesc, List.mem_cons]
    tauto

theorem buildCandidates_split (price : Option ℚ) (vrs : List VectorResult) :
    ∃ xs ys, buildCandidates price vrs = xs ++ ys ∧
      (∀ c ∈ xs, c.exact_price_match = true) ∧
      (∀ c ∈ ys, c.exact_price_match = false) := by
  refine ⟨sortByConfDesc ((vrs.map (mkCandidate price)).filter
      (fun c => c.exact_price_match)),
    (sortByConfDesc ((vrs.map (mkCandidate price)).filter
      (fun c => !c.exact_price_match))).filter
      (fun c => (3:ℚ)/5 < c.combined_confidence), rfl, ?_, ?_⟩
  · intro c hc
    rw [mem_sortByConfDesc] at hc
    exact List.of_mem_filter hc
  · intro c hc
    have hc2 := List.mem_of_mem_filter hc
    rw [mem_sortByConfDesc] at hc2
    have := List.of_mem_filter hc2
    simpa using this

/-! ### C7: the "lain" weight override -/

/-- C7: every reconciled row whose final customer name contains the token
"lain" (case-insensitively) gets weight exactly 1 in the main sheet,
whatever weight extraction reported. -/
theorem lain_forces_weight_one (customer_name : String) (weight_kg : ℤ)
    (h : containsSub (lowerStr customer_name) "lain" = true) :
    main_sheet_weight customer_name weight_kg = 1 := by
  unfold main_sheet_weight
  by_cases hw : weight_kg = 1
  · simp [hw]
  · simp [hw, h]

/-- Witness for C7 at the concrete row ("Lain-lain", weight 7). -/
theorem lain_forces_weight_one_witness :
    containsSub (lowerStr "Lain-lain") "lain" = true ∧
    main_sheet_weight "Lain-lain" 7 = 1 :=
  ⟨by decide, lain_forces_weight_one "Lain-lain" 7 (by decide)⟩

/-! ### C6: weight back-computation -/

/-- C6 counterexample: for a weight-based record with weight 0, total 100
and price 20, reconciliation back-computes 100*1000/20 = 5000, not the 50
the claim states. -/
theorem weight_backcompute_counterexample :
    reconcile_weight (some 0) 100 20 false = 5000 ∧
    reconcile_weight (some 0) 100 20 false ≠ 50 := by
  have h : reconcile_weight (some 0) 100 20 false = 5000 := by
    norm_num [reconcile_weight, pyInt]
  exact ⟨h, by rw [h]; decide⟩

/-- C6 as amended: with the extracted weight zero (or missing) and total
and price both positive, the reconciled weight is total/price truncated for
a count-based record and total*1000/price truncated for a weight-based one;
at total 100 and price 20 this gives 5 and 5000. -/
theorem weight_backcompute_formula (total price : ℚ) (ht : 0 < total)
    (hp : 0 < price) :
    reconcile_weight (some 0) total price true = pyInt (total / price) ∧
    reconcile_weight (some 0) total price false = pyInt (total * 1000 / price) ∧
    reconcile_weight none total price true = pyInt (total / price) ∧
    reconcile_weight none total price false = pyInt (total * 1000 / price) ∧
    reconcile_weight (some 0) 100 20 true = 5 ∧
    reconcile_weight (some 0) 100 20 false = 5000 := by
  have h0 : pyInt 0 = 0 := by norm_num [pyInt]
  refine ⟨?_, ?_, ?_, ?_, ?_, ?_⟩
  · simp [reconcile_weight, h0, ht, hp]
  · simp [reconcile_weight, h0, ht, hp]
  · simp [reconcile_weight, ht, hp]
  · simp [reconcile_weight, ht, hp]
  · norm_num [reconcile_weight, pyInt]
  · norm_num [reconcile_weight, pyInt]

/-- Witness for the amended C6 at total 100, price 20. -/
theorem weight_backcompute_formula_witness :
    reconcile_weight (some 0) 100 20 true = pyInt ((100:ℚ) / 20) ∧
    reconcile_weight (some 0) 100 20 false = pyInt ((100:ℚ) * 1000 / 20) ∧
    reconcile_weight none 100 20 true = pyInt ((100:ℚ) / 20) ∧
    reconcile_weight none 100 20 false = pyInt ((100:ℚ) * 1000 / 20) ∧
    reconcile_weight (some 0) 100 20 true = 5 ∧
    reconcile_weight (some 0) 100 20 false = 5000 :=
  weight_backcompute_formula 100 20 (by norm_num) (by norm_num)

/-! ### C4: the arbiter fallback -/

/-- C4 counterexample: on an arbiter answer that is not "NONE" and names no
candidate, with no exact-price candidate present, the code selects nothing
(returns None) instead of the top-ranked candidate.  The candidate is the
one arbitration itself builds for a 0.9-similar name-only match. -/
theorem arbiter_unparseable_counterexample :
    ai_choose_best_match_with_price (.answer "no idea")
      [mkCandidate (some 7) ⟨"alice", 9/10, 5⟩] = none ∧
    (mkCandidate (some 7) ⟨"alice", 9/10, 5⟩).customer_name = "alice" := by
  have hm : mkCandidate (some 7) ⟨"alice", 9/10, 5⟩ =
      ⟨"alice", 9/10, 5, some 7, false, (9:ℚ)/10 * (7/10)⟩ := by
    norm_num [mkCandidate, isExactPriceMatch]
  rw [hm]
  exact ⟨by decide, rfl⟩

/-- C4 as amended: when the arbiter is unavailable or raises, the fallback
selects the first exact-price candidate in rank order, else the top-ranked
candidate; when the arbiter returns an answer other than "NONE" that names
no candidate, the fallback selects the first exact-price candidate if one
exists and otherwise selects nothing. -/
theorem arbiter_fallback_spec (cands : List Candidate) (hne : cands ≠ []) :
    (ai_choose_best_match_with_price .unavailable cands =
      (match cands.filter (fun c => c.exact_price_match) with
       | e :: _ => some e.customer_name
       | [] => (cands.head?).map (fun c => c.customer_name))) ∧
    (ai_choose_best_match_with_price .error cands =
      (match cands.filter (fun c => c.exact_price_match) with
       | e :: _ => some e.customer_name
       | [] => (cands.head?).map (fun c => c.customer_name))) ∧
    (∀ resp, upperStr resp ≠ "NONE" →
      (∀ c ∈ cands, containsSub (lowerStr resp) (lowerStr c.customer_name) = false) →
      ai_choose_best_match_with_price (.answer resp) cands =
        ((cands.filter (fun c => c.exact_price_match)).head?).map
          (fun c => c.customer_name)) := by
  have hemp : cands.isEmpty = false := by
    cases cands with
    | nil => exact absurd rfl hne
    | cons a t => rfl
  refine ⟨?_, ?_, ?_⟩
  · simp only [ai_choose_best_match_with_price, hemp, Bool.false_eq_true,
      if_false, fallbackChoice]
  · simp only [ai_choose_best_match_with_price, hemp, Bool.false_eq_true,
      if_false, fallbackChoice]
  · intro resp hresp hnone
    have hfind : cands.find?
        (fun c => containsSub (lowerStr resp) (lowerStr c.customer_name)) = none := by
      rw [List.find?_eq_none]
      intro c hc
      simp [hnone c hc]
    simp only [ai_choose_best_match_with_price, hemp, Bool.false_eq_true,
      if_false, hresp, hfind]
    cases h : cands.filter (fun c => c.exact_price_match) with
    | nil => simp
    | cons e rest => simp

/-- Witness for the amended C4 at a one-candidate list with no exact-price
match: unavailable and error select the single candidate, while an
unparseable answer selects nothing. -/
theorem arbiter_fallback_spec_witness :
    (ai_choose_best_match_with_price .unavailable
      [mkCandidate none ⟨"alice", 9/10, 5⟩] =
      (match [mkCandidate none ⟨"alice", 9/10, 5⟩].filter
          (fun c => c.exact_price_match) with
       | e :: _ => some e.customer_name
       | [] => ([mkCandidate none ⟨"alice", 9/10, 5⟩].head?).map
           (fun c => c.customer_name))) ∧
    (ai_choose_best_match_with_price .error
      [mkCandidate none ⟨"alice", 9/10, 5⟩] =
      (match [mkCandidate none ⟨"alice", 9/10, 5⟩].filter
          (fun c => c.exact_price_match) with
       | e :: _ => some e.customer_name
       | [] => ([mkCandidate none ⟨"alice", 9/10, 5⟩].head?).map
           (fun c => c.customer_name))) ∧
    (∀ resp, upperStr resp ≠ "NONE" →
      (∀ c ∈ [mkCandidate none ⟨"alice", 9/10, 5⟩],
        containsSub (lowerStr resp) (lowerStr c.customer_name) = false) →
      ai_choose_best_match_with_price (.answer resp)
        [mkCandidate none ⟨"alice", 9/10, 5⟩] =
        (([mkCandidate none ⟨"alice", 9/10, 5⟩].filter
          (fun c => c.exact_price_match)).head?).map
          (fun c => c.customer_name)) :=
  arbiter_fallback_spec [mkCandidate none ⟨"alice", 9/10, 5⟩] (by simp)

/-! ### C5 counterexample -/

/-- C5 counterexample: the normalizer is not idempotent; on "mr. mr. a" one
application yields "mr. a" and a second application strips a further title
prefix, yielding "a". -/
theorem clean_name_not_idempotent :
    clean_name_for_matching (clean_name_for_matching "mr. mr. a") ≠
      clean_name_for_matching "mr. mr. a" := by decide

/-! ### Character and whitespace lemmas for the normalizer -/

theorem lowerChar_shift_toNat (n : ℕ) (h1 : 65 ≤ n) (h2 : n ≤ 90) :
    (Char.ofNat (n + 32)).toNat = n + 32 := by
  interval_cases n <;> decide

theorem lowerChar_idem (c : Char) : lowerChar (lowerChar c) = lowerChar c := by
  unfold lowerChar
  by_cases h : 65 ≤ c.toNat ∧ c.toNat ≤ 90
  · rw [if_pos h, lowerChar_shift_toNat c.toNat h.1 h.2, if_neg (by omega)]
  · rw [if_neg h, if_neg h]

theorem splitWSAux_word (w : List Char) (hw : ∀ c ∈ w, isWS c = false) :
    ∀ (cs acc : List Char), splitWSAux (w ++ cs) acc = splitWSAux cs (w.reverse ++ acc) := by
  induction w with
  | nil => intro cs acc; simp
  | cons c w ih =>
    intro cs acc
    have hc : isWS c = false := hw c (by simp)
    have hw2 : ∀ d ∈ w, isWS d = false := fun d hd => hw d (by simp [hd])
    show splitWSAux (c :: (w ++ cs)) acc = _
    rw [show splitWSAux (c :: (w ++ cs)) acc = splitWSAux (w ++ cs) (c :: acc) by
      simp [splitWSAux, hc]]
    rw [ih hw2 cs (c :: acc)]
    simp [List.append_assoc]

theorem splitWSAux_ws (c : Char) (hc : isWS c = true) (cs acc : List Char)
    (hacc : acc ≠ []) :
    splitWSAux (c :: cs) acc = acc.reverse :: splitWSAux cs [] := by
  have h : acc.isEmpty = false := by
    cases acc with
    | nil => exact absurd rfl hacc
    | cons a t => rfl
  simp [splitWSAux, hc, h]

theorem joinSpace_nil : joinSpace [] = [] := rfl

theorem joinSpace_single (w : List Char) : joinSpace [w] = w := rfl

theorem joinSpace_cons (w : List Char) (ws : List (List Char)) (h : ws ≠ []) :
    joinSpace (w :: ws) = w ++ ' ' :: joinSpace ws := by
  cases ws with
  | nil => exact absurd rfl h
  | cons w2 ws2 => rfl

theorem splitWS_joinSpace (ws : List (List Char))
    (h : ∀ w ∈ ws, w ≠ [] ∧ ∀ c ∈ w, isWS c = false) :
    splitWS (joinSpace ws) = ws := by
  induction ws with
  | nil => rfl
  | cons w ws ih =>
    obtain ⟨hw, hwc⟩ := h w (by simp)
    have hwr : w.reverse ≠ [] := by simpa using hw
    have hwre : w.reverse.isEmpty = false := by
      cases hrv : w.reverse with
      | nil => exact absurd hrv hwr
      | cons a t => rfl
    cases ws with
    | nil =>
      show splitWSAux (joinSpace [w]) [] = [w]
      rw [joinSpace_single, show w = w ++ [] by simp, splitWSAux_word w hwc [] []]
      simp only [List.append_nil]
      simp [splitWSAux, hwre]
    | cons w2 ws2 =>
      rw [joinSpace_cons w (w2 :: ws2) (by simp)]
      show splitWSAux (w ++ ' ' :: joinSpace (w2 :: ws2)) [] = w :: (w2 :: ws2)
      rw [splitWSAux_word w hwc _ []]
      rw [splitWSAux_ws ' ' (by decide) _ _ (by simpa using hwr)]
      rw [show splitWSAux (joinSpace (w2 :: ws2)) [] = splitWS (joinSpace (w2 :: ws2))
        from rfl]
      rw [ih (fun v hv => h v (by simp [hv]))]
      simp

theorem splitWSAux_members (l : List Char) :
    ∀ (acc : List Char), (∀ c ∈ acc, isWS c = false) →
      ∀ w ∈ splitWSAux l acc, w ≠ [] ∧ ∀ c ∈ w, isWS c = false := by
  induction l with
  | nil =>
    intro acc hacc w hw
    cases acc with
    | nil => simp [splitWSAux] at hw
    | cons a t =>
      simp only [splitWSAux, List.isEmpty_cons, Bool.false_eq_true, if_false,
        List.mem_singleton] at hw
      subst hw
      refine ⟨by simp, ?_⟩
      intro c hc
      exact hacc c (List.mem_reverse.mp hc)
  | cons d ds ih =>
    intro acc hacc w hw
    by_cases hd : isWS d
    · cases acc with
      | nil =>
        simp only [splitWSAux, hd, if_true, List.isEmpty_nil] at hw
        exact ih [] (by simp) w hw
      | cons a t =>
        simp only [splitWSAux, hd, if_true, List.isEmpty_cons, Bool.false_eq_true,
          if_false, List.mem_cons] at hw
        rcases hw with hw | hw
        · subst hw
          refine ⟨by simp, ?_⟩
          intro c hc
          exact hacc c (List.mem_reverse.mp hc)
        · exact ih [] (by simp) w hw
    · simp only [splitWSAux, hd, Bool.false_eq_true, if_false] at hw
      refine ih (d :: acc) ?_ w hw
      intro c hc
      rcases List.mem_cons.mp hc with rfl | hc
      · simp at hd
        exact hd
      · exact hacc c hc

theorem splitWS_members (l : List Char) :
    ∀ w ∈ splitWS l, w ≠ [] ∧ ∀ c ∈ w, isWS c = false :=
  splitWSAux_members l [] (by simp)

theorem collapseWS_idem (l : List Char) : collapseWS (collapseWS l) = collapseWS l := by
  unfold collapseWS
  rw [splitWS_joinSpace (splitWS l) (splitWS_members l)]

theorem dropWhile_joinSpace (ws : List (List Char))
    (h : ∀ w ∈ ws, w ≠ [] ∧ ∀ c ∈ w, isWS c = false) :
    (joinSpace ws).dropWhile isWS = joinSpace ws := by
  cases ws with
  | nil => rfl
  | cons w ws =>
    obtain ⟨hw, hwc⟩ := h w (by simp)
    cases w with
    | nil => exact absurd rfl hw
    | cons c cw =>
      have hc : isWS c = false := hwc c (by simp)
      cases ws with
      | nil => simp [joinSpace_single, List.dropWhile_cons, hc]
      | cons w2 ws2 =>
        rw [joinSpace_cons _ (w2 :: ws2) (by simp)]
        simp [List.dropWhile_cons, hc]

theorem joinSpace_append_single (ws : List (List Char)) (y : List Char) (h : ws ≠ []) :
    joinSpace (ws ++ [y]) = joinSpace ws ++ ' ' :: y := by
  induction ws with
  | nil => exact absurd rfl h
  | cons w ws ih =>
    cases ws with
    | nil => simp [joinSpace_cons w [y] (by simp), joinSpace_single]
    | cons w2 ws2 =>
      rw [List.cons_append, joinSpace_cons w ((w2 :: ws2) ++ [y]) (by simp),
        joinSpace_cons w (w2 :: ws2) (by simp), ih (by simp)]
      simp

theorem reverse_joinSpace (ws : List (List Char)) :
    (joinSpace ws).reverse = joinSpace ((ws.map List.reverse).reverse) := by
  induction ws with
  | nil => rfl
  | cons w ws ih =>
    cases ws with
    | nil => simp [joinSpace_single]
    | cons w2 ws2 =>
      have h1 : ((w :: w2 :: ws2).map List.reverse).reverse
          = ((w2 :: ws2).map List.reverse).reverse ++ [w.reverse] := by
        simp
      rw [joinSpace_cons w (w2 :: ws2) (by simp), h1,
        joinSpace_append_single _ _ (by simp), ← ih]
      simp

theorem stripL_collapseWS (l : List Char) : stripL (collapseWS l) = collapseWS l := by
  have hmem := splitWS_members l
  have hmem2 : ∀ w ∈ (((splitWS l).map List.reverse).reverse),
      w ≠ [] ∧ ∀ c ∈ w, isWS c = false := by
    intro w hw
    rw [List.mem_reverse, List.mem_map] at hw
    obtain ⟨v, hv, rfl⟩ := hw
    obtain ⟨hv1, hv2⟩ := hmem v hv
    exact ⟨by simpa using hv1, fun c hc => hv2 c (by simpa using hc)⟩
  unfold stripL collapseWS
  rw [dropWhile_joinSpace _ hmem, reverse_joinSpace,
    dropWhile_joinSpace _ hmem2, ← reverse_joinSpace, List.reverse_reverse]

theorem mem_splitWSAux (l : List Char) :
    ∀ (acc : List Char) (w : List Char), w ∈ splitWSAux l acc →
      ∀ c ∈ w, c ∈ l ∨ c ∈ acc := by
  induction l with
  | nil =>
    intro acc w hw c hc
    cases acc with
    | nil => simp [splitWSAux] at hw
    | cons a t =>
      simp only [splitWSAux, List.isEmpty_cons, Bool.false_eq_true, if_false,
        List.mem_singleton] at hw
      subst hw
      exact Or.inr (List.mem_reverse.mp hc)
  | cons d ds ih =>
    intro acc w hw c hc
    by_cases hd : isWS d
    · cases acc with
      | nil =>
        simp only [splitWSAux, hd, if_true, List.isEmpty_nil] at hw
        rcases ih [] w hw c hc with h2 | h2
        · exact Or.inl (by simp [h2])
        · simp at h2
      | cons a t =>
        simp only [splitWSAux, hd, if_true, List.isEmpty_cons, Bool.false_eq_true,
          if_false, List.mem_cons] at hw
        rcases hw with hw | hw
        · subst hw
          exact Or.inr (List.mem_reverse.mp hc)
        · rcases ih [] w hw c hc with h2 | h2
          · exact Or.inl (by simp [h2])
          · simp at h2
    · simp only [splitWSAux, hd, Bool.false_eq_true, if_false] at hw
      rcases ih (d :: acc) w hw c hc with h2 | h2
      · exact Or.inl (by simp [h2])
      · rcases List.mem_cons.mp h2 with rfl | h3
        · exact Or.inl (by simp)
        · exact Or.inr h3

theorem mem_joinSpace (ws : List (List Char)) (c : Char) (hc : c ∈ joinSpace ws) :
    (∃ w ∈ ws, c ∈ w) ∨ c = ' ' := by
  induction ws with
  | nil => simp [joinSpace_nil] at hc
  | cons w ws ih =>
    cases ws with
    | nil =>
      rw [joinSpace_single] at hc
      exact Or.inl ⟨w, by simp, hc⟩
    | cons w2 ws2 =>
      rw [joinSpace_cons w (w2 :: ws2) (by simp)] at hc
      rcases List.mem_append.mp hc with h | h
      · exact Or.inl ⟨w, by simp, h⟩
      · rcases List.mem_cons.mp h with rfl | h
        · exact Or.inr rfl
        · rcases ih h with ⟨v, hv, hcv⟩ | h2
          · exact Or.inl ⟨v, by simp [hv], hcv⟩
          · exact Or.inr h2

theorem mem_collapseWS (l : List Char) (c : Char) (hc : c ∈ collapseWS l) :
    c ∈ l ∨ c = ' ' := by
  rcases mem_joinSpace _ c hc with ⟨w, hw, hcw⟩ | h
  · rcases mem_splitWSAux l [] w hw c hcw with h | h
    · exact Or.inl h
    · simp at h
  · exact Or.inr h

theorem mem_dropWhile (p : Char → Bool) (l : List Char) (c : Char)
    (hc : c ∈ l.dropWhile p) : c ∈ l := by
  induction l with
  | nil => simpa using hc
  | cons a t ih =>
    rw [List.dropWhile_cons] at hc
    by_cases h : p a
    · simp only [h, if_true] at hc
      exact List.mem_cons.mpr (Or.inr (ih hc))
    · simp only [h, Bool.false_eq_true, if_false] at hc
      exact hc

theorem mem_stripL (l : List Char) (c : Char) (hc : c ∈ stripL l) : c ∈ l := by
  unfold stripL at hc
  rw [List.mem_reverse] at hc
  have h2 := mem_dropWhile _ _ _ hc
  rw [List.mem_reverse] at h2
  exact mem_dropWhile _ _ _ h2

theorem mem_affix_fold (ps : List (List Char)) (l : List Char) (c : Char)
    (step : List Char → List Char → List Char)
    (hstep : ∀ cur p, ∀ d ∈ step cur p, d ∈ cur)
    (hc : c ∈ ps.foldl step l) : c ∈ l := by
  induction ps generalizing l with
  | nil => simpa using hc
  | cons p ps ih => exact hstep l p c (ih (step l p) hc)

theorem mem_removeTitleAffixes (l : List Char) (c : Char)
    (hc : c ∈ removeTitleAffixes l) : c ∈ l := by
  refine mem_affix_fold titleAffixes l c _ ?_ hc
  intro cur p d hd
  by_cases h : p.isPrefixOf cur
  · simp only [h, if_true] at hd
    exact List.drop_subset _ _ (mem_stripL _ _ hd)
  · simpa [h] using hd

theorem mem_removeCompanyAffixes (l : List Char) (c : Char)
    (hc : c ∈ removeCompanyAffixes l) : c ∈ l := by
  refine mem_affix_fold companyAffixes l c _ ?_ hc
  intro cur s d hd
  by_cases h : s.isSuffixOf cur
  · simp only [h, if_true] at hd
    exact List.take_subset _ _ (mem_stripL _ _ hd)
  · simpa [h] using hd

theorem cleanChars_char_spec (x : List Char) (c : Char) (hc : c ∈ cleanChars x) :
    allowedChar c = true ∧ lowerChar c = c := by
  unfold cleanChars nfkc at hc
  rcases mem_collapseWS _ c hc with h | rfl
  · unfold regexClean at h
    rw [List.mem_map] at h
    obtain ⟨d, hd, hdc⟩ := h
    by_cases ha : allowedChar d
    · simp only [ha, if_true] at hdc
      subst hdc
      refine ⟨ha, ?_⟩
      have hd2 := mem_removeTitleAffixes _ _ (mem_removeCompanyAffixes _ _ hd)
      have hd3 := mem_stripL _ _ hd2
      rw [List.mem_map] at hd3
      obtain ⟨e, _, rfl⟩ := hd3
      exact lowerChar_idem e
    · simp only [ha, Bool.false_eq_true, if_false] at hdc
      subst hdc
      exact ⟨by decide, by decide⟩
  · exact ⟨by decide, by decide⟩

theorem map_lowerChar_cleanChars (x : List Char) :
    (cleanChars x).map lowerChar = cleanChars x := by
  have h : ∀ c ∈ cleanChars x, lowerChar c = id c := by
    intro c hc
    exact (cleanChars_char_spec x c hc).2
  rw [List.map_congr_left h, List.map_id]

theorem regexClean_of_allowed (l : List Char) (h : ∀ c ∈ l, allowedChar c = true) :
    regexClean l = l := by
  unfold regexClean
  have h2 : ∀ c ∈ l, (if allowedChar c then c else ' ') = id c := by
    intro c hc
    simp [h c hc]
  rw [List.map_congr_left h2, List.map_id]

theorem affix_fold_of_none (ps : List (List Char)) (l : List Char)
    (step : List Char → List Char → List Char)
    (cond : List Char → List Char → Bool)
    (hstep : ∀ cur p, cond cur p = false → step cur p = cur)
    (h : ∀ p ∈ ps, cond l p = false) : ps.foldl step l = l := by
  induction ps with
  | nil => rfl
  | cons p ps ih =>
    rw [List.foldl_cons, hstep l p (h p (by simp))]
    exact ih (fun q hq => h q (by simp [hq]))

theorem removeTitleAffixes_of_none (l : List Char)
    (h : ∀ p ∈ titleAffixes, p.isPrefixOf l = false) :
    removeTitleAffixes l = l := by
  refine affix_fold_of_none titleAffixes l _ (fun cur p => p.isPrefixOf cur) ?_ h
  intro cur p hp
  simp [hp]

theorem removeCompanyAffixes_of_none (l : List Char)
    (h : ∀ s ∈ companyAffixes, s.isSuffixOf l = false) :
    removeCompanyAffixes l = l := by
  refine affix_fold_of_none companyAffixes l _ (fun cur s => s.isSuffixOf cur) ?_ h
  intro cur s hs
  simp [hs]

theorem stripL_cleanChars (x : List Char) : stripL (cleanChars x) = cleanChars x := by
  unfold cleanChars
  exact stripL_collapseWS _

theorem collapseWS_cleanChars (x : List Char) :
    collapseWS (cleanChars x) = cleanChars x := by
  unfold cleanChars
  exact collapseWS_idem _

theorem cleanChars_idem (x : List Char)
    (h1 : ∀ p ∈ titleAffixes, p.isPrefixOf (cleanChars x) = false)
    (h2 : ∀ s ∈ companyAffixes, s.isSuffixOf (cleanChars x) = false) :
    cleanChars (cleanChars x) = cleanChars x := by
  conv_lhs => rw [cleanChars]
  rw [map_lowerChar_cleanChars, stripL_cleanChars,
    removeTitleAffixes_of_none _ h1, removeCompanyAffixes_of_none _ h2,
    regexClean_of_allowed _ (fun c hc => (cleanChars_char_spec x c hc).1)]
  show collapseWS (cleanChars x) = cleanChars x
  exact collapseWS_cleanChars x

/-- The data field of a constructed string. -/
theorem string_mk_data (l : List Char) : (String.mk l).data = l := rfl

/-- C5 as amended: on ASCII inputs the normalizer is idempotent exactly
when its single normalization neither starts with a listed personal title
nor ends with a listed company suffix (a second application can only act
by stripping a further such affix, as the counterexample shows).  The
statement is restricted to ASCII inputs, the range on which this embedding
of \w, lower() and NFKC coincides with the source: outside it the NFKC
expansion step (dropped by the identity model `nfkc`) can itself break
idempotence - the vulgar fraction one-half normalizes to digit one,
fraction slash, digit two, whose fraction slash a second pass replaces by
a space even though no affix is involved. -/
theorem clean_name_idempotent_without_affixes (x : String)
    (hascii : ∀ c ∈ x.data, c.toNat < 128)
    (h1 : ∀ p ∈ titleAffixes, p.isPrefixOf (clean_name_for_matching x).data = false)
    (h2 : ∀ s ∈ companyAffixes, s.isSuffixOf (clean_name_for_matching x).data = false) :
    clean_name_for_matching (clean_name_for_matching x) =
      clean_name_for_matching x := by
  simp only [clean_name_for_matching, string_mk_data] at h1 h2 ⊢
  exact congrArg String.mk (cleanChars_idem x.data h1 h2)

/-- Witness for the amended C5 at the ASCII input "John!" (normalizes to
"john", which carries no removable affix). -/
theorem clean_name_idempotent_without_affixes_witness :
    (∀ c ∈ ("John!" : String).data, c.toNat < 128) ∧
    (∀ p ∈ titleAffixes, p.isPrefixOf (clean_name_for_matching "John!").data = false) ∧
    (∀ s ∈ companyAffixes, s.isSuffixOf (clean_name_for_matching "John!").data = false) ∧
    clean_name_for_matching (clean_name_for_matching "John!") =
      clean_name_for_matching "John!" :=
  ⟨by decide, by decide, by decide,
    clean_name_idempotent_without_affixes "John!" (by decide) (by decide) (by decide)⟩
/-! ### C1: exact-price candidates precede name-only candidates -/

theorem flag_split_precede (l xs ys : List Candidate) (heq : l = xs ++ ys)
    (hxs : ∀ c ∈ xs, c.exact_price_match = true)
    (hys : ∀ c ∈ ys, c.exact_price_match = false)
    (i j : ℕ) (hi : i < l.length) (hj : j < l.length)
    (hexact : (l.get ⟨i, hi⟩).exact_price_match = true)
    (hname : (l.get ⟨j, hj⟩).exact_price_match = false) :
    i < j := by
  subst heq
  simp only [List.get_eq_getElem] at hexact hname
  have hi2 : i < xs.length := by
    by_contra hcon
    push_neg at hcon
    have hlt : i - xs.length < ys.length := by
      have h3 := hi
      simp only [List.length_append] at h3
      omega
    have h2 : (xs ++ ys)[i] = ys[i - xs.length] :=
      List.getElem_append_right hcon
    have hmem : (xs ++ ys)[i] ∈ ys := by
      rw [h2]
      exact List.getElem_mem hlt
    rw [hys _ hmem] at hexact
    exact absurd hexact (by simp)
  have hj2 : xs.length ≤ j := by
    by_contra hcon
    push_neg at hcon
    have h2 : (xs ++ ys)[j] = xs[j] := List.getElem_append_left hcon
    have hmem : (xs ++ ys)[j] ∈ xs := by
      rw [h2]
      exact List.getElem_mem hcon
    rw [hxs _ hmem] at hname
    exact absurd hname (by simp)
  omega

/-- C1: in the ranked candidate list built by find_best_customer_match,
every exact-price-match candidate occupies an earlier position than every
name-only candidate, whatever the similarity scores. -/
theorem exact_price_candidates_precede (price : Option ℚ) (vrs : List VectorResult)
    (i j : ℕ) (hi : i < (buildCandidates price vrs).length)
    (hj : j < (buildCandidates price vrs).length)
    (hexact : ((buildCandidates price vrs).get ⟨i, hi⟩).exact_price_match = true)
    (hname : ((buildCandidates price vrs).get ⟨j, hj⟩).exact_price_match = false) :
    i < j := by
  obtain ⟨xs, ys, heq, hxs, hys⟩ := buildCandidates_split price vrs
  exact flag_split_precede _ xs ys heq hxs hys i j hi hj hexact hname

/-- Witness for C1: with extracted price 10, a 0.6-similar exact-price
candidate lands at position 0 and a 0.95-similar name-only candidate at
position 1. -/
theorem exact_price_candidates_precede_witness :
    ∃ hi : 0 < (buildCandidates (some 10) [wVrName, wVrExact]).length,
    ∃ hj : 1 < (buildCandidates (some 10) [wVrName, wVrExact]).length,
      ((buildCandidates (some 10) [wVrName, wVrExact]).get ⟨0, hi⟩).exact_price_match
        = true ∧
      ((buildCandidates (some 10) [wVrName, wVrExact]).get ⟨1, hj⟩).exact_price_match
        = false ∧
      (0:ℕ) < 1 := by
  have hb : buildCandidates (some 10) [wVrName, wVrExact] =
      [mkCandidate (some 10) wVrExact, mkCandidate (some 10) wVrName] := by
    norm_num [buildCandidates, mkCandidate, isExactPriceMatch, sortByConfDesc,
      insertDesc, wVrExact, wVrName]
  have he : (mkCandidate (some 10) wVrExact).exact_price_match = true := by
    norm_num [mkCandidate, isExactPriceMatch, wVrExact]
  have hn : (mkCandidate (some 10) wVrName).exact_price_match = false := by
    norm_num [mkCandidate, isExactPriceMatch, wVrName]
  have hi : 0 < (buildCandidates (some 10) [wVrName, wVrExact]).length := by
    rw [hb]; norm_num
  have hj : 1 < (buildCandidates (some 10) [wVrName, wVrExact]).length := by
    rw [hb]; norm_num
  have hx : ((buildCandidates (some 10) [wVrName, wVrExact]).get
      ⟨0, hi⟩).exact_price_match = true := by
    simp only [List.get_eq_getElem]
    rw [List.getElem_of_eq hb]
    simpa using he
  have hy : ((buildCandidates (some 10) [wVrName, wVrExact]).get
      ⟨1, hj⟩).exact_price_match = false := by
    simp only [List.get_eq_getElem]
    rw [List.getElem_of_eq hb]
    simpa using hn
  exact ⟨hi, hj, hx, hy,
    exact_price_candidates_precede (some 10) [wVrName, wVrExact] 0 1 hi hj hx hy⟩

/-! ### C2: combined confidence and the 0.6 filter -/

/-- C2: a candidate is flagged exact-price iff both prices are present,
positive and within 0.01; its combined confidence is similarity * 0.95 when
exact and similarity * 0.7 otherwise; every exact-price candidate reaches
the final list, and no name-only candidate with combined confidence at most
0.6 does. -/
theorem combined_confidence_spec (price : Option ℚ) (vrs : List VectorResult)
    (r : VectorResult) (hr : r ∈ vrs) :
    ((mkCandidate price r).exact_price_match = true ↔
      ∃ p, price = some p ∧ 0 < p ∧ 0 < r.price_per_ton ∧
        |p - r.price_per_ton| < 1/100) ∧
    (mkCandidate price r).combined_confidence =
      r.confidence_score *
        (if (mkCandidate price r).exact_price_match then (19:ℚ)/20 else 7/10) ∧
    ((mkCandidate price r).exact_price_match = true →
      mkCandidate price r ∈ buildCandidates price vrs) ∧
    ((mkCandidate price r).exact_price_match = false →
      (mkCandidate price r).combined_confidence ≤ 3/5 →
      mkCandidate price r ∉ buildCandidates price vrs) := by
  refine ⟨?_, ?_, ?_, ?_⟩
  · unfold mkCandidate isExactPriceMatch
    cases price with
    | none => simp
    | some p =>
      constructor
      · intro h
        simp only at h
        split at h
        · next hcond => exact ⟨p, rfl, hcond.2.1, hcond.2.2.1, hcond.2.2.2⟩
        · exact absurd h (by simp)
      · rintro ⟨p2, hp2, hpos, hcust, hdiff⟩
        obtain rfl := Option.some.inj hp2
        simp only
        rw [if_pos ⟨by positivity, hpos, hcust, hdiff⟩]
  · unfold mkCandidate
    by_cases h : isExactPriceMatch price r.price_per_ton <;> simp [h, mul_comm]
  · intro h
    unfold buildCandidates
    apply List.mem_append_left
    rw [mem_sortByConfDesc]
    apply List.mem_filter.mpr
    exact ⟨List.mem_map_of_mem _ hr, by simp [h]⟩
  · intro h hconf hmem
    unfold buildCandidates at hmem
    rcases List.mem_append.mp hmem with hm | hm
    · rw [mem_sortByConfDesc] at hm
      have h4 := List.of_mem_filter hm
      rw [h] at h4
      exact absurd h4 (by simp)
    · have h4 := List.of_mem_filter hm
      simp only [decide_eq_true_eq] at h4
      exact absurd hconf (not_le.mpr h4)

/-- Witness for C2 at the exact-price search result (price 10, similarity
0.6). -/
theorem combined_confidence_spec_witness :
    wVrExact ∈ [wVrName, wVrExact] ∧
    (((mkCandidate (some 10) wVrExact).exact_price_match = true ↔
      ∃ p, (some (10:ℚ)) = some p ∧ 0 < p ∧ 0 < wVrExact.price_per_ton ∧
        |p - wVrExact.price_per_ton| < 1/100) ∧
    (mkCandidate (some 10) wVrExact).combined_confidence =
      wVrExact.confidence_score *
        (if (mkCandidate (some 10) wVrExact).exact_price_match then (19:ℚ)/20
         else 7/10) ∧
    ((mkCandidate (some 10) wVrExact).exact_price_match = true →
      mkCandidate (some 10) wVrExact ∈ buildCandidates (some 10) [wVrName, wVrExact]) ∧
    ((mkCandidate (some 10) wVrExact).exact_price_match = false →
      (mkCandidate (some 10) wVrExact).combined_confidence ≤ 3/5 →
      mkCandidate (some 10) wVrExact ∉ buildCandidates (some 10) [wVrName, wVrExact])) :=
  ⟨by simp, combined_confidence_spec (some 10) [wVrName, wVrExact] wVrExact (by simp)⟩
/-! ### Arbitration helper lemmas -/

theorem fallbackChoice_mem (cands : List Candidate) (s : String)
    (h : fallbackChoice cands = some s) : ∃ c ∈ cands, c.customer_name = s := by
  unfold fallbackChoice at h
  cases hf : cands.filter (fun c => c.exact_price_match) with
  | cons e rest =>
    rw [hf] at h
    obtain rfl := Option.some.inj h
    have he : e ∈ cands := by
      have : e ∈ cands.filter (fun c => c.exact_price_match) := by
        rw [hf]; simp
      exact List.mem_of_mem_filter this
    exact ⟨e, he, rfl⟩
  | nil =>
    rw [hf] at h
    cases cands with
    | nil => simp at h
    | cons a t =>
      simp only [List.head?_cons, Option.map_some'] at h
      obtain rfl := Option.some.inj h
      exact ⟨a, by simp, rfl⟩

theorem ai_choice_mem_names (outcome : ArbiterOutcome) (cands : List Candidate)
    (s : String) (h : ai_choose_best_match_with_price outcome cands = some s) :
    ∃ c ∈ cands, c.customer_name = s := by
  unfold ai_choose_best_match_with_price at h
  by_cases hemp : cands.isEmpty
  · rw [if_pos hemp] at h
    have : cands = [] := List.isEmpty_iff.mp hemp
    subst this
    simp [fallbackChoice] at h
  · rw [if_neg hemp] at h
    cases outcome with
    | unavailable => exact fallbackChoice_mem cands s h
    | error => exact fallbackChoice_mem cands s h
    | answer resp =>
      have h2 : (if upperStr resp = "NONE" then none
          else
            match cands.find?
                (fun c => containsSub (lowerStr resp) (lowerStr c.customer_name)) with
            | some c => some c.customer_name
            | none =>
              match cands.filter (fun c => c.exact_price_match) with
              | e :: _ => some e.customer_name
              | [] => none) = some s := h
      clear h
      by_cases hn : upperStr resp = "NONE"
      · rw [if_pos hn] at h2
        simp at h2
      · rw [if_neg hn] at h2
        cases hfind : cands.find?
            (fun c => containsSub (lowerStr resp) (lowerStr c.customer_name)) with
        | some c =>
          rw [hfind] at h2
          obtain rfl := Option.some.inj h2
          exact ⟨c, List.mem_of_find?_eq_some hfind, rfl⟩
        | none =>
          rw [hfind] at h2
          cases hf : cands.filter (fun c => c.exact_price_match) with
          | nil => rw [hf] at h2; simp at h2
          | cons e rest =>
            rw [hf] at h2
            obtain rfl := Option.some.inj h2
            have he : e ∈ cands := by
              have : e ∈ cands.filter (fun c => c.exact_price_match) := by
                rw [hf]; simp
              exact List.mem_of_mem_filter this
            exact ⟨e, he, rfl⟩

theorem find?_name_eq_some (cands : List Candidate) (s : String)
    (h : ∃ c ∈ cands, c.customer_name = s) :
    ∃ c, cands.find? (fun c => c.customer_name == s) = some c ∧
      c.customer_name = s := by
  obtain ⟨c0, hc0, hs⟩ := h
  have hsome : (cands.find? (fun c => c.customer_name == s)).isSome := by
    rw [List.find?_isSome]
    exact ⟨c0, hc0, by simp [hs]⟩
  obtain ⟨c, hc⟩ := Option.isSome_iff_exists.mp hsome
  refine ⟨c, hc, ?_⟩
  have := List.find?_some hc
  simpa using this

/-! ### C9: arbitration is total -/

/-- C9: find_best_customer_match never reaches the one raising path for any
inputs: it always returns a decision, with status no_name_provided exactly
on an empty extracted name and otherwise match_found or
new_customer_detected. -/
theorem find_best_customer_match_total (extractedName : String)
    (price : Option ℚ) (vrs : List VectorResult) (outcome : ArbiterOutcome) :
    ∃ d, find_best_customer_match extractedName price vrs outcome = .ok d ∧
      (extractedName = "" → d.status = .no_name_provided ∧ d.confidence = 0) ∧
      (extractedName ≠ "" →
        d.status = .match_found ∨ d.status = .new_customer_detected) := by
  unfold find_best_customer_match
  by_cases hname : extractedName = ""
  · rw [if_pos hname]
    exact ⟨_, rfl, fun _ => ⟨rfl, rfl⟩, fun h => absurd hname h⟩
  · rw [if_neg hname]
    by_cases hv : vrs.isEmpty
    · rw [if_pos hv]
      exact ⟨_, rfl, fun h => absurd h hname, fun _ => Or.inr rfl⟩
    · rw [if_neg hv]
      by_cases hall : (buildCandidates price vrs).isEmpty
      · rw [if_pos hall]
        exact ⟨_, rfl, fun h => absurd h hname, fun _ => Or.inr rfl⟩
      · rw [if_neg hall]
        cases hai : ai_choose_best_match_with_price outcome
            (topCandidates price vrs) with
        | none =>
          exact ⟨newCustomerDecision, rfl, fun h => absurd h hname,
            fun _ => Or.inr rfl⟩
        | some choice =>
          dsimp only
          by_cases hch : choice = ""
          · rw [if_pos hch]
            exact ⟨newCustomerDecision, rfl, fun h => absurd h hname,
              fun _ => Or.inr rfl⟩
          · rw [if_neg hch]
            have hmem := ai_choice_mem_names outcome _ choice hai
            obtain ⟨c, hcfind, hcname⟩ := find?_name_eq_some _ choice hmem
            rw [hcfind]
            dsimp only
            by_cases hconf : 1/2 ≤ c.combined_confidence
            · rw [if_pos hconf]
              exact ⟨_, rfl, fun h => absurd h hname, fun _ => Or.inl rfl⟩
            · rw [if_neg hconf]
              exact ⟨newCustomerDecision, rfl, fun h => absurd h hname,
                fun _ => Or.inr rfl⟩

/-- Witness for C9 at an empty name, and at a nonempty name with one search
result and an unavailable arbiter. -/
theorem find_best_customer_match_total_witness :
    (∃ d, find_best_customer_match "" (some 10) [wVrExact] .unavailable = .ok d ∧
      ("" = "" → d.status = .no_name_provided ∧ d.confidence = 0) ∧
      ("" ≠ "" → d.status = .match_found ∨ d.status = .new_customer_detected)) ∧
    (∃ d, find_best_customer_match "alice" (some 10) [wVrExact] .unavailable
        = .ok d ∧
      ("alice" = "" → d.status = .no_name_provided ∧ d.confidence = 0) ∧
      ("alice" ≠ "" →
        d.status = .match_found ∨ d.status = .new_customer_detected)) :=
  ⟨find_best_customer_match_total "" (some 10) [wVrExact] .unavailable,
   find_best_customer_match_total "alice" (some 10) [wVrExact] .unavailable⟩
/-! ### C3: the 0.5 acceptance floor -/

/-- C3: for a nonempty extracted name and nonempty search results,
find_best_customer_match returns match_found, carrying the chosen
candidate's name, combined confidence and price-match flag, exactly when
the candidate selected by the arbiter or its fallback has combined
confidence at least 0.5; in every other case it returns
new_customer_detected with confidence 0. -/
theorem match_found_iff_selected_confident (extractedName : String)
    (price : Option ℚ) (vrs : List VectorResult) (outcome : ArbiterOutcome)
    (hname : extractedName ≠ "") (hvrs : vrs ≠ []) :
    ∃ d, find_best_customer_match extractedName price vrs outcome = .ok d ∧
      ((∃ c, selectedCandidate price vrs outcome = some c ∧
          1/2 ≤ c.combined_confidence ∧
          d.status = .match_found ∧
          d.matched_customer_name = some c.customer_name ∧
          d.confidence = c.combined_confidence ∧
          d.price_match = some c.exact_price_match) ∨
       (d = newCustomerDecision ∧
        ∀ c, selectedCandidate price vrs outcome = some c →
          c.combined_confidence < 1/2)) := by
  have hv : vrs.isEmpty = false := by
    cases vrs with
    | nil => exact absurd rfl hvrs
    | cons a t => rfl
  unfold find_best_customer_match
  rw [if_neg hname, hv]
  simp only [Bool.false_eq_true, if_false]
  by_cases hall : (buildCandidates price vrs).isEmpty
  · rw [if_pos hall]
    have hsel : selectedCandidate price vrs outcome = none := by
      unfold selectedCandidate topCandidates
      rw [List.isEmpty_iff.mp hall]
      simp [ai_choose_best_match_with_price, fallbackChoice]
    exact ⟨newCustomerDecision, rfl, Or.inr ⟨rfl,
      fun c hc => absurd hc (by simp [hsel])⟩⟩
  · rw [if_neg hall]
    cases hai : ai_choose_best_match_with_price outcome (topCandidates price vrs) with
    | none =>
      have hsel : selectedCandidate price vrs outcome = none := by
        unfold selectedCandidate
        rw [hai]
      exact ⟨newCustomerDecision, rfl, Or.inr ⟨rfl,
        fun c hc => absurd hc (by simp [hsel])⟩⟩
    | some choice =>
      dsimp only
      by_cases hch : choice = ""
      · rw [if_pos hch]
        have hsel : selectedCandidate price vrs outcome = none := by
          unfold selectedCandidate
          rw [hai]
          dsimp only
          rw [if_pos hch]
        exact ⟨newCustomerDecision, rfl, Or.inr ⟨rfl,
          fun c hc => absurd hc (by simp [hsel])⟩⟩
      · rw [if_neg hch]
        have hmem := ai_choice_mem_names outcome _ choice hai
        obtain ⟨c, hcfind, hcname⟩ := find?_name_eq_some _ choice hmem
        rw [hcfind]
        dsimp only
        have hsel : selectedCandidate price vrs outcome = some c := by
          unfold selectedCandidate
          rw [hai]
          dsimp only
          rw [if_neg hch, hcfind]
        by_cases hconf : 1/2 ≤ c.combined_confidence
        · rw [if_pos hconf]
          refine ⟨_, rfl, Or.inl ⟨c, hsel, hconf, rfl, ?_, rfl, rfl⟩⟩
          rw [hcname]
        · rw [if_neg hconf]
          refine ⟨newCustomerDecision, rfl, Or.inr ⟨rfl, fun c2 hc2 => ?_⟩⟩
          rw [hsel] at hc2
          obtain rfl := Option.some.inj hc2
          exact not_le.mp hconf

/-- Witness for C3 at the name "ahmad", price 10, one exact-price search
result, and an unavailable arbiter (deterministic fallback). -/
theorem match_found_iff_selected_confident_witness :
    ∃ d, find_best_customer_match "ahmad" (some 10) [wVrExact] .unavailable
        = .ok d ∧
      ((∃ c, selectedCandidate (some 10) [wVrExact] .unavailable = some c ∧
          1/2 ≤ c.combined_confidence ∧
          d.status = .match_found ∧
          d.matched_customer_name = some c.customer_name ∧
          d.confidence = c.combined_confidence ∧
          d.price_match = some c.exact_price_match) ∨
       (d = newCustomerDecision ∧
        ∀ c, selectedCandidate (some 10) [wVrExact] .unavailable = some c →
          c.combined_confidence < 1/2)) :=
  match_found_iff_selected_confident "ahmad" (some 10) [wVrExact] .unavailable
    (by decide) (by simp)
/-! ### C8: the worker amount invariant -/

theorem roundHalfEven_err (q : ℚ) : |(roundHalfEven q : ℚ) - q| ≤ 1/2 := by
  unfold roundHalfEven
  have h0 : (0:ℚ) ≤ q - ⌊q⌋ := by
    have := Int.floor_le q
    linarith
  have h1 : q - ⌊q⌋ < 1 := by
    have := Int.lt_floor_add_one q
    push_cast at this
    linarith
  by_cases ha : q - ⌊q⌋ < 1/2
  · rw [if_pos ha, abs_le]
    constructor <;> linarith
  · rw [if_neg ha]
    by_cases hb : 1/2 < q - ⌊q⌋
    · rw [if_pos hb]
      push_cast
      rw [abs_le]
      constructor <;> linarith
    · rw [if_neg hb]
      have heq : q - ⌊q⌋ = 1/2 := le_antisymm (not_lt.mp hb) (not_lt.mp ha)
      by_cases hpar : ⌊q⌋ % 2 = 0
      · rw [if_pos hpar, abs_le]
        constructor <;> linarith
      · rw [if_neg hpar]
        push_cast
        rw [abs_le]
        constructor <;> linarith

theorem round2_err (q : ℚ) : |round2 q - q| ≤ 1/200 := by
  unfold round2
  have h := roundHalfEven_err (q * 100)
  rw [abs_le] at h ⊢
  obtain ⟨h1, h2⟩ := h
  constructor <;> [linarith; linarith]

/-- C8 counterexample: a knowledge-base row with price 100, company 30 and
a worker cell holding 50 loads a Customer with both split amounts present
whose sum 80 misses the price by 20, far beyond rounding tolerance. -/
theorem worker_sum_invariant_counterexample :
    (load_customer_row "X" (.num 100) (.num 30) (.num 50) none).company_amount
      = some 30 ∧
    (load_customer_row "X" (.num 100) (.num 30) (.num 50) none).worker_amount
      = some 50 ∧
    (load_customer_row "X" (.num 100) (.num 30) (.num 50) none).price_per_ton
      = 100 ∧
    ¬ |(30:ℚ) + 50 - 100| ≤ 1 := by
  refine ⟨?_, ?_, rfl, by norm_num⟩
  · norm_num [load_customer_row, parseCompany, parsePrice]
  · norm_num [load_customer_row, parseCompany, parsePrice, loadWorker,
      parseWorker, round2, roundHalfEven]

/-- C8 as amended: the worker amount is derived as price - company (rounded
to 2 decimals) exactly when the worker cell yields no positive value while
the company amount is present and the price positive, and then
company + worker matches the price within rounding tolerance (1/200); a
positive worker cell is loaded verbatim instead, and the sum invariant is
not enforced for it. -/
theorem worker_derivation_spec (name : String) (pc cc wc : CellVal)
    (fc : Option String) (c : ℚ)
    (hwc : cellPositiveNum wc = false)
    (hcc : parseCompany cc = some c)
    (hp : 0 < parsePrice pc) :
    (load_customer_row name pc cc wc fc).worker_amount
      = some (round2 (parsePrice pc - c)) ∧
    |c + round2 (parsePrice pc - c) - parsePrice pc| ≤ 1/200 := by
  constructor
  · unfold load_customer_row
    simp only
    rw [hcc]
    unfold loadWorker
    cases wc with
    | empty =>
      unfold parseWorker
      dsimp only
      rw [if_pos hp]
    | text =>
      unfold parseWorker
      dsimp only
      rw [if_pos hp]
    | num q =>
      have hq : ¬ 0 < q := by
        unfold cellPositiveNum at hwc
        simpa using hwc
      unfold parseWorker
      dsimp only
      rw [if_neg hq]
      dsimp only
      rw [if_pos hp]
  · have h := round2_err (parsePrice pc - c)
    rw [abs_le] at h ⊢
    obtain ⟨h1, h2⟩ := h
    constructor <;> linarith

/-- Witness for the amended C8: price 100, company 30, empty worker cell
derives worker 70, and 30 + 70 hits 100 exactly. -/
theorem worker_derivation_spec_witness :
    (load_customer_row "X" (.num 100) (.num 30) .empty none).worker_amount
      = some (round2 (parsePrice (.num 100) - 30)) ∧
    |(30:ℚ) + round2 (parsePrice (.num 100) - 30) - parsePrice (.num 100)|
      ≤ 1/200 :=
  worker_derivation_spec "X" (.num 100) (.num 30) .empty none 30 (by decide)
    (by norm_num [parseCompany]) (by norm_num [parsePrice])

/-! ### C10: duplicate cleaned names resolve to the first catalog entry -/

theorem find?_decomp {α : Type} (p : α → Bool) (l : List α) (b : α)
    (h : l.find? p = some b) :
    ∃ l₁ l₂, l = l₁ ++ b :: l₂ ∧ p b = true ∧ ∀ x ∈ l₁, p x = false := by
  induction l with
  | nil => simp [List.find?] at h
  | cons a t ih =>
    rw [List.find?_cons] at h
    by_cases hp : p a
    · rw [hp] at h
      obtain rfl : a = b := by simpa using h
      exact ⟨[], t, rfl, hp, by simp⟩
    · have hp2 : p a = false := by simpa using hp
      rw [hp2] at h
      have h2 : t.find? p = some b := h
      obtain ⟨l₁, l₂, heq, hb, hall⟩ := ih h2
      refine ⟨a :: l₁, l₂, by rw [heq, List.cons_append], hb, ?_⟩
      intro x hx
      rcases List.mem_cons.mp hx with rfl | hx
      · simpa using hp
      · exact hall x hx

/-- C10: every result of find_customer_matches resolves its matched cleaned
name to the first catalog entry (in catalog order) whose cleaned name
equals it: the entries before it all have a different cleaned name, so a
later customer with an identical cleaned name is never returned. -/
theorem find_customer_matches_first_in_catalog (customers : List Customer)
    (fuzzyMatches : List (String × ℚ)) (r : MatchResult)
    (hr : r ∈ find_customer_matches customers fuzzyMatches) :
    ∃ ms ∈ fuzzyMatches, ∃ pre e post,
      customerEntries customers = pre ++ e :: post ∧
      e.cleaned_name = ms.1 ∧
      r.customer_name = e.customer.name ∧
      r.price_per_ton = e.customer.price_per_ton ∧
      r.confidence_score = ms.2 / 100 ∧
      ∀ e2 ∈ pre, e2.cleaned_name ≠ ms.1 := by
  unfold find_customer_matches at hr
  rw [List.mem_filterMap] at hr
  obtain ⟨ms, hms, hsome⟩ := hr
  rw [Option.map_eq_some'] at hsome
  obtain ⟨e, hefind, her⟩ := hsome
  obtain ⟨pre, post, heq, hpe, hpre⟩ := find?_decomp _ _ _ hefind
  refine ⟨ms, hms, pre, e, post, heq, by simpa using hpe, ?_, ?_, ?_, ?_⟩
  · rw [← her]
  · rw [← her]
  · rw [← her]
  · intro e2 he2
    have := hpre e2 he2
    simpa using this

/-- Witness for C10: two catalog customers, "Mr. Ali" and "ali", share the
cleaned name "ali"; the fuzzy match "ali" resolves to "Mr. Ali", the first
of the two. -/
theorem find_customer_matches_first_in_catalog_witness :
    (MatchResult.mk "Mr. Ali" 10 ((90:ℚ) / 100)
        ∈ find_customer_matches [wCustTitled, wCustPlain] [("ali", 90)]) ∧
    (∃ ms ∈ [(("ali":String), (90:ℚ))], ∃ pre e post,
      customerEntries [wCustTitled, wCustPlain] = pre ++ e :: post ∧
      e.cleaned_name = ms.1 ∧
      (MatchResult.mk "Mr. Ali" 10 ((90:ℚ) / 100)).customer_name
        = e.customer.name ∧
      (MatchResult.mk "Mr. Ali" 10 ((90:ℚ) / 100)).price_per_ton
        = e.customer.price_per_ton ∧
      (MatchResult.mk "Mr. Ali" 10 ((90:ℚ) / 100)).confidence_score = ms.2 / 100 ∧
      ∀ e2 ∈ pre, e2.cleaned_name ≠ ms.1) := by
  have hclean : clean_name_for_matching "Mr. Ali" = "ali" := by decide
  have hmem : MatchResult.mk "Mr. Ali" 10 ((90:ℚ) / 100)
      ∈ find_customer_matches [wCustTitled, wCustPlain] [("ali", 90)] := by
    unfold find_customer_matches customerEntries wCustTitled wCustPlain
    simp only [List.map_cons, List.map_nil, List.filterMap_cons, List.find?_cons,
      hclean]
    norm_num
  exact ⟨hmem, find_customer_matches_first_in_catalog [wCustTitled, wCustPlain]
    [("ali", 90)] (MatchResult.mk "Mr. Ali" 10 ((90:ℚ) / 100)) hmem⟩
